import Mathlib

/-!
Shallow embedding of `src/node.rs` from the min-heap-binary-tree repository.

The Rust code builds an explicit linked tree: each `Node` stores an `i32`
value, a `RefCell<Weak<Node>>` back-reference to its parent, and a
`RefCell<Vec<Rc<Node>>>` of owned children.  We model the `Rc`/`RefCell`
shared-mutable graph as an arena: a `Store` is the list of allocated nodes,
a node identity (`Rc` pointer) is its index `NodeId` in the arena, the weak
parent reference is `Option NodeId` (`Weak::new()` is `none`), and the
children vector is a `List NodeId`.  `i32` values are modelled as `Int`
(no arithmetic is ever performed on values, so wrap-around never arises).
Mutating operations take the store and return the updated store.
-/

/-- Node identity: an `Rc<Node>` pointer, modelled as an arena index. -/
abbrev NodeId := Nat

/-- The `Node` struct of `src/node.rs` (lines 13-18): `value: i32`,
`parent: RefCell<Weak<Node>>`, `children: RefCell<Vec<Rc<Node>>>`. -/
structure Node where
  value : Int
  parent : Option NodeId
  children : List NodeId
deriving Repr, DecidableEq

/-- The arena of allocated nodes; node ids are indices into this list. -/
abbrev Store := List Node

namespace Node

/-- `Node::new_orphan(value)`: creates a new node with no parent
(`Weak::new()`) and no children, returning the fresh `Rc` (here: the fresh
index, which is the previous arena size). -/
def new_orphan (s : Store) (value : Int) : Store × NodeId :=
  (s ++ [{ value := value, parent := none, children := [] }], s.length)

/-- The statement `parent.children.borrow_mut().push(Rc::clone(child))`:
appends `child` to the children vector of the node `parent`.  The Rust
callers pass `&Rc<Node>`, so `parent` is always a live allocated node; an
out-of-range id (impossible in the source) leaves the store unchanged. -/
def push_child_step (s : Store) (parent child : NodeId) : Store :=
  match s[parent]? with
  | some p => s.set parent { p with children := p.children ++ [child] }
  | none => s

/-- The statement `*child.parent.borrow_mut() = Rc::downgrade(&parent)`:
overwrites the parent weak-reference of the node `child`. -/
def set_parent_step (s : Store) (parent child : NodeId) : Store :=
  match s[child]? with
  | some c => s.set child { c with parent := some parent }
  | none => s

/-- `Node::new_child(parent, child_value)`: creates a new node whose parent
weak-reference is set to `parent` at construction (the fresh node gets the
fresh id `s.length`), then pushes a strong reference to the new node into
`parent.children`. -/
def new_child (s : Store) (parent : NodeId) (child_value : Int) : Store :=
  push_child_step
    (s ++ [{ value := child_value, parent := some parent, children := [] }])
    parent s.length

/-- `Node::get_value(&self)`: returns the `value` field. -/
def get_value (n : Node) : Int :=
  n.value

/-- Value stored at id `i`; children in the source are `Rc<Node>` and hence
always live, so the `none` branch is unreachable on stores built by the
operations (the default `0` is never observed there). -/
def valueAt (s : Store) (i : NodeId) : Int :=
  ((s[i]?).map Node.value).getD 0

/-- `Node::get_child_values(&self)`: starts from an empty vector and pushes
`i.get_value()` for each child `i` in order. -/
def get_child_values (s : Store) (n : Node) : List Int :=
  n.children.foldl (fun result i => result ++ [valueAt s i]) []

/-- `Node::parent_child(parent, child)`: stores a weak reference to `parent`
in `child.parent`, then pushes a strong reference to `child` into
`parent.children`.  (The `println!` debug line is I/O only and does not
change the tree.) -/
def parent_child (s : Store) (parent child : NodeId) : Store :=
  push_child_step (set_parent_step s parent child) parent child

end Node

/-- Error taxonomy of spec section 7 relevant to `swap`. -/
inductive SwapError where
  | InvalidRelation
deriving Repr, DecidableEq

/-- Modelled from the spec: `Node::swap` in `src/node.rs` is declared with
body `unimplemented!()`, so the implementation is missing from the
repository.  Spec section 4.2: `swap(parent, child)` requires `child` to be
one of `parent`'s direct children, failing with an InvalidRelation
("not a direct child") error otherwise, and on success the two nodes
exchange their `value` fields only, leaving every ownership edge as
before. -/
def swapSpec (s : Store) (parent child : NodeId) : Except SwapError Store :=
  match s[parent]?, s[child]? with
  | some p, some c =>
      if child ∈ p.children then
        Except.ok ((s.set parent { p with value := c.value }).set child
          { c with value := p.value })
      else
        Except.error SwapError.InvalidRelation
  | _, _ => Except.error SwapError.InvalidRelation

/-! ### Helper lemmas -/

lemma lt_length_of_getElem?_some {s : Store} {i : NodeId} {n : Node}
    (h : s[i]? = some n) : i < s.length :=
  (List.getElem?_eq_some_iff.mp h).1

lemma set_self_of_getElem? (s : Store) (i : NodeId) (n : Node)
    (h : s[i]? = some n) : s.set i n = s := by
  apply List.ext_getElem?
  intro j
  by_cases hj : i = j
  · subst hj
    rw [List.getElem?_set_self (lt_length_of_getElem?_some h), h]
  · rw [List.getElem?_set_ne hj]

lemma swapSpec_ok (s : Store) (P C : NodeId) (p c : Node)
    (hp : s[P]? = some p) (hc : s[C]? = some c) (hchild : C ∈ p.children) :
    swapSpec s P C =
      Except.ok ((s.set P { p with value := c.value }).set C
        { c with value := p.value }) := by
  unfold swapSpec
  rw [hp, hc]
  simp [hchild]

lemma swapSpec_getElem? (s : Store) (P C : NodeId) (p c : Node)
    (hp : s[P]? = some p) (hc : s[C]? = some c) (hchild : C ∈ p.children)
    (s' : Store) (hs' : swapSpec s P C = Except.ok s') (i : NodeId) :
    s'[i]? = if i = C then some { c with value := p.value }
             else if i = P then some { p with value := c.value }
             else s[i]? := by
  rw [swapSpec_ok s P C p c hp hc hchild] at hs'
  have hs'' := Except.ok.inj hs'
  subst hs''
  by_cases hiC : i = C
  · subst hiC
    rw [if_pos rfl, List.getElem?_set_self]
    simpa using lt_length_of_getElem?_some hc
  · rw [if_neg hiC, List.getElem?_set_ne (fun h => hiC h.symm)]
    by_cases hiP : i = P
    · subst hiP
      rw [if_pos rfl, List.getElem?_set_self (lt_length_of_getElem?_some hp)]
    · rw [if_neg hiP, List.getElem?_set_ne (fun h => hiP h.symm)]

/-! ### Claims about swap (modelled from the spec, `swapSpec`) -/

/-- Claim C1: for every parent node P and node C that is a direct child of P,
swap(P, C) succeeds, makes P's value equal C's pre-call value and C's value
equal P's pre-call value, and leaves every ownership edge (parent references,
children sequences and their ordering, hence grandchildren) exactly as before
the call. -/
theorem swap_exchanges_values_only (s : Store) (P C : NodeId) (p c : Node)
    (hp : s[P]? = some p) (hc : s[C]? = some c) (hchild : C ∈ p.children) :
    ∃ s' : Store, swapSpec s P C = Except.ok s' ∧
      (s'[P]?).map Node.value = some c.value ∧
      (s'[C]?).map Node.value = some p.value ∧
      (∀ i : NodeId, (s'[i]?).map Node.parent = (s[i]?).map Node.parent) ∧
      (∀ i : NodeId, (s'[i]?).map Node.children = (s[i]?).map Node.children) := by
  refine ⟨_, swapSpec_ok s P C p c hp hc hchild, ?_, ?_, ?_, ?_⟩
  · rw [swapSpec_getElem? s P C p c hp hc hchild _
      (swapSpec_ok s P C p c hp hc hchild) P]
    by_cases hPC : P = C
    · subst hPC
      have hpc : p = c := by rw [hp] at hc; exact Option.some.inj hc
      subst hpc
      simp
    · rw [if_neg hPC, if_pos rfl]
      rfl
  · rw [swapSpec_getElem? s P C p c hp hc hchild _
      (swapSpec_ok s P C p c hp hc hchild) C]
    rw [if_pos rfl]
    rfl
  · intro i
    rw [swapSpec_getElem? s P C p c hp hc hchild _
      (swapSpec_ok s P C p c hp hc hchild) i]
    by_cases hiC : i = C
    · subst hiC
      rw [if_pos rfl, hc]
      rfl
    · by_cases hiP : i = P
      · subst hiP
        rw [if_neg hiC, if_pos rfl, hp]
        rfl
      · rw [if_neg hiC, if_neg hiP]
  · intro i
    rw [swapSpec_getElem? s P C p c hp hc hchild _
      (swapSpec_ok s P C p c hp hc hchild) i]
    by_cases hiC : i = C
    · subst hiC
      rw [if_pos rfl, hc]
      rfl
    · by_cases hiP : i = P
      · subst hiP
        rw [if_neg hiC, if_pos rfl, hp]
        rfl
      · rw [if_neg hiC, if_neg hiP]

def exS1 : Store := [⟨5, none, [1]⟩, ⟨3, some 0, []⟩]

theorem swap_exchanges_values_only_witness :
    ∃ s' : Store, swapSpec exS1 0 1 = Except.ok s' ∧
      (s'[0]?).map Node.value = some 3 ∧
      (s'[1]?).map Node.value = some 5 ∧
      (∀ i : NodeId, (s'[i]?).map Node.parent = (exS1[i]?).map Node.parent) ∧
      (∀ i : NodeId, (s'[i]?).map Node.children = (exS1[i]?).map Node.children) :=
  swap_exchanges_values_only exS1 0 1 ⟨5, none, [1]⟩ ⟨3, some 0, []⟩
    rfl rfl (by decide)

/-- Claim C2: for every pair of nodes P and X where X is not a direct child
of P, swap(P, X) fails with an InvalidRelation error.  In this embedding a
failing call returns `Except.error` and no store, so the pre-call store —
including the values of P and X and all ownership edges — is untouched: the
operation is atomic, fully applied or not applied at all. -/
theorem swap_rejects_non_child (s : Store) (P X : NodeId) (p x : Node)
    (hp : s[P]? = some p) (hx : s[X]? = some x) (hnot : X ∉ p.children) :
    swapSpec s P X = Except.error SwapError.InvalidRelation ∧
    ∀ s' : Store, swapSpec s P X ≠ Except.ok s' := by
  have herr : swapSpec s P X = Except.error SwapError.InvalidRelation := by
    unfold swapSpec
    rw [hp, hx]
    simp [hnot]
  exact ⟨herr, fun s' hok => by rw [herr] at hok; exact Except.noConfusion hok⟩

def exS2 : Store := [⟨5, none, []⟩, ⟨3, none, []⟩]

theorem swap_rejects_non_child_witness :
    swapSpec exS2 0 1 = Except.error SwapError.InvalidRelation ∧
    ∀ s' : Store, swapSpec exS2 0 1 ≠ Except.ok s' :=
  swap_rejects_non_child exS2 0 1 ⟨5, none, []⟩ ⟨3, none, []⟩ rfl rfl (by decide)

/-- Claim C3: for every parent node P and direct child C of P, swap(P, C)
twice in succession restores the store exactly (in particular both values
return to their original state), and the ownership edges are identical
before and after each of the two calls: swap is value-only and an
involution. -/
theorem swap_involution (s : Store) (P C : NodeId) (p c : Node)
    (hp : s[P]? = some p) (hc : s[C]? = some c) (hchild : C ∈ p.children) :
    ∃ s' : Store, swapSpec s P C = Except.ok s' ∧
      swapSpec s' P C = Except.ok s ∧
      (∀ i : NodeId, (s'[i]?).map Node.parent = (s[i]?).map Node.parent) ∧
      (∀ i : NodeId, (s'[i]?).map Node.children = (s[i]?).map Node.children) := by
  have hok := swapSpec_ok s P C p c hp hc hchild
  have hpt := swapSpec_getElem? s P C p c hp hc hchild _ hok
  refine ⟨_, hok, ?_, ?_, ?_⟩
  · by_cases hPC : P = C
    · subst hPC
      have hpc : p = c := by rw [hp] at hc; exact Option.some.inj hc
      subst hpc
      have h1 : (s.set P { p with value := p.value }).set P
          { p with value := p.value } = s := by
        rw [set_self_of_getElem? _ _ _ (by
          rw [List.getElem?_set_self (lt_length_of_getElem?_some hp)]),
          set_self_of_getElem? s P _ (by rw [hp])]
      rw [h1, swapSpec_ok s P P p p hp hp hchild,
        set_self_of_getElem? _ _ _ (by
          rw [List.getElem?_set_self (lt_length_of_getElem?_some hp)]),
        set_self_of_getElem? s P _ (by rw [hp])]
    · have hp' : ((s.set P { p with value := c.value }).set C
          { c with value := p.value })[P]? = some { p with value := c.value } := by
        rw [hpt P, if_neg hPC, if_pos rfl]
      have hc' : ((s.set P { p with value := c.value }).set C
          { c with value := p.value })[C]? = some { c with value := p.value } := by
        rw [hpt C, if_pos rfl]
      rw [swapSpec_ok _ P C { p with value := c.value } { c with value := p.value }
        hp' hc' hchild]
      congr 1
      apply List.ext_getElem?
      intro j
      have hlen : P < s.length := lt_length_of_getElem?_some hp
      by_cases hjC : j = C
      · subst hjC
        rw [List.getElem?_set_self, hc]
        simpa using lt_length_of_getElem?_some hc
      · rw [List.getElem?_set_ne (fun h => hjC h.symm)]
        by_cases hjP : j = P
        · subst hjP
          rw [List.getElem?_set_self (by simpa using hlen), hp]
        · rw [List.getElem?_set_ne (fun h => hjP h.symm), hpt j,
            if_neg hjC, if_neg hjP]
  · intro i
    rw [hpt i]
    by_cases hiC : i = C
    · subst hiC
      rw [if_pos rfl, hc]
      rfl
    · by_cases hiP : i = P
      · subst hiP
        rw [if_neg hiC, if_pos rfl, hp]
        rfl
      · rw [if_neg hiC, if_neg hiP]
  · intro i
    rw [hpt i]
    by_cases hiC : i = C
    · subst hiC
      rw [if_pos rfl, hc]
      rfl
    · by_cases hiP : i = P
      · subst hiP
        rw [if_neg hiC, if_pos rfl, hp]
        rfl
      · rw [if_neg hiC, if_neg hiP]

def exS3 : Store := [⟨5, none, [1]⟩, ⟨3, some 0, []⟩]

theorem swap_involution_witness :
    ∃ s' : Store, swapSpec exS3 0 1 = Except.ok s' ∧
      swapSpec s' 0 1 = Except.ok exS3 ∧
      (∀ i : NodeId, (s'[i]?).map Node.parent = (exS3[i]?).map Node.parent) ∧
      (∀ i : NodeId, (s'[i]?).map Node.children = (exS3[i]?).map Node.children) :=
  swap_involution exS3 0 1 ⟨5, none, [1]⟩ ⟨3, some 0, []⟩ rfl rfl (by decide)

/-! ### Helper lemmas for the linking steps -/

lemma set_parent_step_of_some {s : Store} {P C : NodeId} {c : Node}
    (hc : s[C]? = some c) :
    Node.set_parent_step s P C = s.set C { c with parent := some P } := by
  unfold Node.set_parent_step
  rw [hc]

lemma push_child_step_of_some {s : Store} {P C : NodeId} {p : Node}
    (hp : s[P]? = some p) :
    Node.push_child_step s P C = s.set P { p with children := p.children ++ [C] } := by
  unfold Node.push_child_step
  rw [hp]

lemma push_child_step_value (s : Store) (P C i : NodeId) :
    ((Node.push_child_step s P C)[i]?).map Node.value = (s[i]?).map Node.value := by
  unfold Node.push_child_step
  cases hp : s[P]? with
  | none => rfl
  | some p =>
      by_cases hiP : i = P
      · subst hiP
        rw [List.getElem?_set_self (lt_length_of_getElem?_some hp), hp]
        rfl
      · rw [List.getElem?_set_ne (fun h => hiP h.symm)]

lemma set_parent_step_value (s : Store) (P C i : NodeId) :
    ((Node.set_parent_step s P C)[i]?).map Node.value = (s[i]?).map Node.value := by
  unfold Node.set_parent_step
  cases hc : s[C]? with
  | none => rfl
  | some c =>
      by_cases hiC : i = C
      · subst hiC
        rw [List.getElem?_set_self (lt_length_of_getElem?_some hc), hc]
        rfl
      · rw [List.getElem?_set_ne (fun h => hiC h.symm)]

/-! ### Claims about parent_child -/

/-- Claim C4: after link(P, C) — `Node::parent_child` — C's parent reference
resolves to P, P's children sequence contains C, and consequently the
mutual-consistency biconditional holds: C's parent resolves to P iff P's
children contains C. -/
theorem parent_child_mutual (s : Store) (P C : NodeId) (p c : Node)
    (hp : s[P]? = some p) (hc : s[C]? = some c) :
    (∃ c' : Node, (Node.parent_child s P C)[C]? = some c' ∧ c'.parent = some P) ∧
    (∃ p' : Node, (Node.parent_child s P C)[P]? = some p' ∧ C ∈ p'.children) ∧
    ((∃ c' : Node, (Node.parent_child s P C)[C]? = some c' ∧ c'.parent = some P) ↔
      (∃ p' : Node, (Node.parent_child s P C)[P]? = some p' ∧ C ∈ p'.children)) := by
  have hClen := lt_length_of_getElem?_some hc
  have hPlen := lt_length_of_getElem?_some hp
  unfold Node.parent_child
  rw [set_parent_step_of_some hc]
  by_cases hPC : P = C
  · subst hPC
    rw [push_child_step_of_some (p := { c with parent := some P })
      (by rw [List.getElem?_set_self hClen])]
    have hget : ((s.set P { c with parent := some P }).set P
        { c with parent := some P, children := c.children ++ [P] })[P]? =
        some { c with parent := some P, children := c.children ++ [P] } := by
      rw [List.getElem?_set_self (by simpa using hClen)]
    refine ⟨⟨_, hget, rfl⟩, ⟨_, hget, by simp⟩, ?_⟩
    exact iff_of_true ⟨_, hget, rfl⟩ ⟨_, hget, by simp⟩
  · rw [push_child_step_of_some (p := p)
      (by rw [List.getElem?_set_ne (fun h => hPC (h.symm)), hp])]
    have hgetC : ((s.set C { c with parent := some P }).set P
        { p with children := p.children ++ [C] })[C]? =
        some { c with parent := some P } := by
      rw [List.getElem?_set_ne hPC, List.getElem?_set_self hClen]
    have hgetP : ((s.set C { c with parent := some P }).set P
        { p with children := p.children ++ [C] })[P]? =
        some { p with children := p.children ++ [C] } := by
      rw [List.getElem?_set_self (by simpa using hPlen)]
    refine ⟨⟨_, hgetC, rfl⟩, ⟨_, hgetP, by simp⟩, ?_⟩
    exact iff_of_true ⟨_, hgetC, rfl⟩ ⟨_, hgetP, by simp⟩

def exS4 : Store := [⟨1, none, []⟩, ⟨2, none, []⟩]

theorem parent_child_mutual_witness :
    (∃ c' : Node, (Node.parent_child exS4 0 1)[1]? = some c' ∧ c'.parent = some 0) ∧
    (∃ p' : Node, (Node.parent_child exS4 0 1)[0]? = some p' ∧ 1 ∈ p'.children) ∧
    ((∃ c' : Node, (Node.parent_child exS4 0 1)[1]? = some c' ∧ c'.parent = some 0) ↔
      (∃ p' : Node, (Node.parent_child exS4 0 1)[0]? = some p' ∧ 1 ∈ p'.children)) :=
  parent_child_mutual exS4 0 1 ⟨1, none, []⟩ ⟨2, none, []⟩ rfl rfl

/-- Claim C5 (code bug): the spec requires link on a child C that already
has a different parent Q either to fail with AlreadyAttached or to detach C
from Q first.  `Node::parent_child` does neither: starting from three roots
Q (id 0, value 1), P (id 1, value 2), C (id 2, value 3), running
`parent_child Q C` and then `parent_child P C` returns normally (the
function is total and reports no error), re-points C's parent to P, and
leaves the stale entry for C in Q's children sequence. -/
theorem parent_child_stale_entry :
    Node.parent_child
        (Node.parent_child [⟨1, none, []⟩, ⟨2, none, []⟩, ⟨3, none, []⟩] 0 2) 1 2 =
      [⟨1, none, [2]⟩, ⟨2, none, [2]⟩, ⟨3, some 1, []⟩] ∧
    (∃ c' : Node,
      (Node.parent_child
        (Node.parent_child [⟨1, none, []⟩, ⟨2, none, []⟩, ⟨3, none, []⟩] 0 2) 1 2)[2]? =
        some c' ∧ c'.parent = some 1) ∧
    (∃ q' : Node,
      (Node.parent_child
        (Node.parent_child [⟨1, none, []⟩, ⟨2, none, []⟩, ⟨3, none, []⟩] 0 2) 1 2)[0]? =
        some q' ∧ 2 ∈ q'.children) := by
  refine ⟨rfl, ⟨⟨3, some 1, []⟩, rfl, rfl⟩, ⟨⟨1, none, [2]⟩, rfl, by decide⟩⟩

/-! ### Helper lemmas for the accessors -/

lemma foldl_push_eq_append_map (f : NodeId → Int) (l : List NodeId) :
    ∀ acc : List Int,
      l.foldl (fun result i => result ++ [f i]) acc = acc ++ l.map f := by
  induction l with
  | nil => intro acc; simp
  | cons a l ih => intro acc; simp [ih]

lemma get_child_values_eq_map (s : Store) (n : Node) :
    Node.get_child_values s n = n.children.map (Node.valueAt s) := by
  unfold Node.get_child_values
  rw [foldl_push_eq_append_map]
  simp

/-! ### Claims about construction and accessors -/

/-- Claim C6: for every live parent node P and value v,
`Node::new_child P v` creates a fresh node holding v whose parent reference
is P and whose children list is empty, appends the fresh node to the end of
P's children sequence, and afterwards child-values(P) ends with v. -/
theorem new_child_appends (s : Store) (P : NodeId) (v : Int) (p : Node)
    (hp : s[P]? = some p) :
    (Node.new_child s P v)[s.length]? =
      some { value := v, parent := some P, children := [] } ∧
    (Node.new_child s P v)[P]? =
      some { p with children := p.children ++ [s.length] } ∧
    ∀ p' : Node, (Node.new_child s P v)[P]? = some p' →
      (Node.get_child_values (Node.new_child s P v) p').getLast? = some v := by
  have hPlen := lt_length_of_getElem?_some hp
  have hPne : P ≠ s.length := Nat.ne_of_lt hPlen
  have hs1 : (s ++ [({ value := v, parent := some P, children := [] } : Node)])[P]? =
      some p := by
    rw [List.getElem?_append_left hPlen, hp]
  unfold Node.new_child
  rw [push_child_step_of_some hs1]
  have hfresh :
      ((s ++ [({ value := v, parent := some P, children := [] } : Node)]).set P
        { p with children := p.children ++ [s.length] })[s.length]? =
      some { value := v, parent := some P, children := [] } := by
    rw [List.getElem?_set_ne hPne, List.getElem?_concat_length]
  have hlen2 :
      P < (s ++ [({ value := v, parent := some P, children := [] } : Node)]).length := by
    simpa using Nat.lt_succ_of_lt hPlen
  have hpar :
      ((s ++ [({ value := v, parent := some P, children := [] } : Node)]).set P
        { p with children := p.children ++ [s.length] })[P]? =
      some { p with children := p.children ++ [s.length] } := by
    rw [List.getElem?_set_self hlen2]
  refine ⟨hfresh, hpar, ?_⟩
  intro p' hp'
  rw [hpar] at hp'
  have hp'' := Option.some.inj hp'
  subst hp''
  rw [get_child_values_eq_map]
  show ((p.children ++ [s.length]).map _).getLast? = some v
  rw [List.map_append]
  simp only [List.map_cons, List.map_nil]
  rw [List.getLast?_concat]
  unfold Node.valueAt
  rw [hfresh]
  rfl

def exS6 : Store := [⟨5, none, []⟩]

theorem new_child_appends_witness :
    (Node.new_child exS6 0 24)[1]? =
      some { value := 24, parent := some 0, children := [] } ∧
    (Node.new_child exS6 0 24)[0]? =
      some { value := 5, parent := none, children := [1] } ∧
    ∀ p' : Node, (Node.new_child exS6 0 24)[0]? = some p' →
      (Node.get_child_values (Node.new_child exS6 0 24) p').getLast? = some 24 :=
  new_child_appends exS6 0 24 ⟨5, none, []⟩ rfl

/-- Claim C7: for every value v and any pre-existing arena,
`Node::new_orphan v` always succeeds, and the node it returns stores value
v, has an absent parent reference (`Weak::new()`, i.e. `none`) and an empty
children sequence, so its child-values list is empty. -/
theorem new_orphan_no_relations (s : Store) (v : Int) :
    ((Node.new_orphan s v).1)[(Node.new_orphan s v).2]? =
      some { value := v, parent := none, children := [] } ∧
    Node.get_value { value := v, parent := none, children := [] } = v ∧
    Node.get_child_values (Node.new_orphan s v).1
      { value := v, parent := none, children := [] } = [] := by
  refine ⟨?_, rfl, rfl⟩
  show (s ++ [{ value := v, parent := none, children := [] }])[s.length]? = _
  rw [List.getElem?_concat_length]

/-- Claim C8: `Node::get_value` returns the currently stored value, and
`Node::get_child_values` returns exactly the values of the direct children
in their stored order, the empty sequence for a leaf.  Both accessors are
modelled as pure functions that return a result without producing a new
store, mirroring that the Rust methods take `&self` and mutate nothing, and
both are total, hence always succeed on a live node. -/
theorem accessors_pure (s : Store) (n : Node) :
    Node.get_value n = n.value ∧
    Node.get_child_values s n = n.children.map (Node.valueAt s) ∧
    (n.children = [] → Node.get_child_values s n = []) := by
  refine ⟨rfl, get_child_values_eq_map s n, ?_⟩
  intro h
  rw [get_child_values_eq_map, h]
  rfl

def exS8 : Store := [⟨1, none, [1, 2]⟩, ⟨2, some 0, []⟩, ⟨3, some 0, []⟩]

theorem accessors_pure_witness :
    Node.get_value ⟨1, none, [1, 2]⟩ = 1 ∧
    Node.get_child_values exS8 ⟨1, none, [1, 2]⟩ = [2, 3] ∧
    ([1, 2] = ([] : List NodeId) →
      Node.get_child_values exS8 ⟨1, none, [1, 2]⟩ = []) :=
  accessors_pure exS8 ⟨1, none, [1, 2]⟩

/-! ### The concrete scenario of spec section 8 -/

def scenS0 : Store := [⟨5, none, []⟩]
def scenS1 : Store := [⟨5, none, [1]⟩, ⟨24, some 0, []⟩]
def scenS2 : Store := [⟨5, none, [1, 2]⟩, ⟨24, some 0, []⟩, ⟨3, some 0, []⟩]
def scenS3 : Store := [⟨3, none, [1, 2]⟩, ⟨24, some 0, []⟩, ⟨5, some 0, []⟩]

/-- Claim C9: the concrete scenario.  Create root R with value 5; attaching
a child 24 gives child-values [24]; attaching a second child 3 gives
child-values [24, 3]; swapping R with the node holding 3 succeeds, after
which R holds 3, the node at that child position holds 5, child-values of R
read by position is [24, 5], and every parent reference and children
sequence is unchanged. -/
theorem concrete_scenario :
    Node.new_orphan [] 5 = (scenS0, 0) ∧
    Node.new_child scenS0 0 24 = scenS1 ∧
    Node.get_child_values scenS1 ⟨5, none, [1]⟩ = [24] ∧
    Node.new_child scenS1 0 3 = scenS2 ∧
    Node.get_child_values scenS2 ⟨5, none, [1, 2]⟩ = [24, 3] ∧
    swapSpec scenS2 0 2 = Except.ok scenS3 ∧
    (scenS3[0]?).map Node.value = some 3 ∧
    (scenS3[2]?).map Node.value = some 5 ∧
    Node.get_child_values scenS3 ⟨3, none, [1, 2]⟩ = [24, 5] ∧
    scenS3.map Node.parent = scenS2.map Node.parent ∧
    scenS3.map Node.children = scenS2.map Node.children :=
  ⟨rfl, rfl, rfl, rfl, rfl, rfl, rfl, rfl, rfl, rfl, rfl⟩

/-! ### Which operations can change a stored value -/

lemma swapSpec_ok_inv {s : Store} {P C : NodeId} {s' : Store}
    (h : swapSpec s P C = Except.ok s') :
    ∃ p c : Node, s[P]? = some p ∧ s[C]? = some c ∧ C ∈ p.children ∧
      s' = (s.set P { p with value := c.value }).set C { c with value := p.value } := by
  unfold swapSpec at h
  cases hp : s[P]? with
  | none =>
      simp only [hp] at h
      exact Except.noConfusion h
  | some p =>
      cases hc : s[C]? with
      | none =>
          simp only [hp, hc] at h
          exact Except.noConfusion h
      | some c =>
          simp only [hp, hc] at h
          by_cases hm : C ∈ p.children
          · rw [if_pos hm] at h
            exact ⟨p, c, rfl, rfl, hm, (Except.ok.inj h).symm⟩
          · rw [if_neg hm] at h
            exact Except.noConfusion h

def exSA : Store := [⟨5, none, [1, 2]⟩, ⟨3, some 0, []⟩, ⟨7, some 0, []⟩]
def exSA1 : Store := [⟨3, none, [1, 2]⟩, ⟨5, some 0, []⟩, ⟨7, some 0, []⟩]

/-- Claim C10 counterexample: the claim says no public operation — swap
included — ever changes the value field of an already-existing node.  On
the spec-modelled swap this is false: swapping the root (value 5) with its
direct child (value 3) succeeds and changes both stored values. -/
theorem value_mutation_counterexample :
    exSA.map Node.value = [5, 3, 7] ∧
    swapSpec exSA 0 1 = Except.ok exSA1 ∧
    exSA1.map Node.value = [3, 5, 7] ∧
    (exSA[0]?).map Node.value ≠ (exSA1[0]?).map Node.value :=
  ⟨rfl, rfl, rfl, by decide⟩

/-- Claim C10 (amended): the stored value is fixed at construction as far as
new_orphan, new_child, parent_child, get_value and get_child_values are
concerned — none of them changes the value field of any already-existing
node — and a successful swap changes no value other than those of the two
nodes it is called on (which it exchanges). -/
theorem values_fixed_except_swap (s : Store) (P C i : NodeId) (v : Int) (n : Node)
    (hi : s[i]? = some n) :
    (((Node.new_orphan s v).1)[i]?).map Node.value = some n.value ∧
    ((Node.new_child s P v)[i]?).map Node.value = some n.value ∧
    ((Node.parent_child s P C)[i]?).map Node.value = some n.value ∧
    (∀ s' : Store, swapSpec s P C = Except.ok s' → i ≠ P → i ≠ C →
      (s'[i]?).map Node.value = some n.value) := by
  have hilen := lt_length_of_getElem?_some hi
  refine ⟨?_, ?_, ?_, ?_⟩
  · show ((s ++ [({ value := v, parent := none, children := [] } : Node)])[i]?).map
      Node.value = some n.value
    rw [List.getElem?_append_left hilen, hi]
    rfl
  · unfold Node.new_child
    rw [push_child_step_value, List.getElem?_append_left hilen, hi]
    rfl
  · unfold Node.parent_child
    rw [push_child_step_value, set_parent_step_value, hi]
    rfl
  · intro s' hok hiP hiC
    obtain ⟨p, c, hp, hc, hm, rfl⟩ := swapSpec_ok_inv hok
    rw [List.getElem?_set_ne (fun h => hiC h.symm),
      List.getElem?_set_ne (fun h => hiP h.symm), hi]
    rfl

theorem values_fixed_except_swap_witness :
    (((Node.new_orphan exSA 9).1)[2]?).map Node.value = some 7 ∧
    ((Node.new_child exSA 0 9)[2]?).map Node.value = some 7 ∧
    ((Node.parent_child exSA 0 1)[2]?).map Node.value = some 7 ∧
    (∀ s' : Store, swapSpec exSA 0 1 = Except.ok s' → (2 : NodeId) ≠ 0 →
      (2 : NodeId) ≠ 1 → (s'[2]?).map Node.value = some 7) :=
  values_fixed_except_swap exSA 0 1 2 9 ⟨7, some 0, []⟩ rfl
